import Mathlib

/-!
Verification of the NIST-score core (`nltk/translate/nist_score.py`).

The Python module is embedded shallowly:

* token sequences become `List ℕ` (tokens are opaque, comparable, hashable);
* the `Counter` built by `ngram_freq.update` becomes the counting function
  `ngram_freq`; membership (`ngram in ngram_freq`) is a positive count, since
  keys only enter the counter through `update` with actually occurring n-grams;
* real (float) arithmetic is modelled over `ℝ`;
* the fallible parts (the `assert`, `max([])` raising `ValueError`, and the
  `ZeroDivisionError`s in the final precision sum and in
  `nist_length_penalty`) make `corpus_nist` return `Option ℝ`, with `none`
  for every raising execution.
-/

namespace Nist

abbrev Token := ℕ

abbrev Sentence := List Token

abbrev RefSet := List Sentence

abbrev Corpus := List RefSet

/-- Modelled from the spec: the external n-gram generation utility
(`nltk.util.ngrams`, whose source is not part of this repository slice).
Given a token sequence and an order `i` it produces the finite sequence of
order-`i` windows obtained by sliding a width-`i` window over the sequence,
with no wraparound and no padding; it is empty for `i > length`. -/
def ngrams (sequence : Sentence) (i : ℕ) : List (List Token) :=
  (List.range (sequence.length + 1 - i)).map fun j => (sequence.drop j).take i

/-- The `ngram_freq` counter of `corpus_nist`: for every reference set, for
every reference, for every order `i = 1..n`, every order-`i` window of the
reference increments the count of that n-gram by one. -/
def ngram_freq (list_of_references : Corpus) (n : ℕ) (g : List Token) : ℕ :=
  (list_of_references.map fun references =>
    (references.map fun reference =>
      ((List.range n).map fun k => (ngrams reference (k + 1)).count g).sum).sum).sum

/-- The `total_reference_words` accumulator of `corpus_nist`: the summed
length of every reference sentence of every reference set. -/
def total_reference_words (list_of_references : Corpus) : ℕ :=
  (list_of_references.map fun references => (references.map List.length).sum).sum

/-- The `information_weights` table of `corpus_nist`:
`log2(freq(prefix)/freq(ngram))` when the length-`(i-1)` prefix is a key of
the counter (equivalently: has positive count), and the
`total_reference_words` fallback otherwise.  `math.log(x, 2)` is `logb 2 x`. -/
noncomputable def information_weight (list_of_references : Corpus) (n : ℕ)
    (ngram : List Token) : ℝ :=
  Real.logb 2
    (if 0 < ngram_freq list_of_references n ngram.dropLast then
      (ngram_freq list_of_references n ngram.dropLast : ℝ) /
        (ngram_freq list_of_references n ngram : ℝ)
    else
      (total_reference_words list_of_references : ℝ) /
        (ngram_freq list_of_references n ngram : ℝ))

/-- The `nist_length_penalty` function.  Python first evaluates
`ratio = hyp_len / ref_len`, which raises `ZeroDivisionError` when
`ref_len = 0` (modelled by `none`); for `0 < ratio < 1` it returns
`exp(beta * log(ratio)^2)` with `beta = log(0.5)/log(1.5)**2`, and otherwise
`max(min(ratio, 1.0), 0.0)`. -/
noncomputable def nist_length_penalty (ref_len hyp_len : ℝ) : Option ℝ :=
  if ref_len = 0 then none
  else if 0 < hyp_len / ref_len ∧ hyp_len / ref_len < 1 then
    some (Real.exp (Real.log 0.5 / Real.log 1.5 ^ 2 * Real.log (hyp_len / ref_len) ^ 2))
  else
    some (max (min (hyp_len / ref_len) 1) 0)

/-- C3: `nist_length_penalty(ref_len, hyp_len)` with `ref_len > 0` and
`ratio = hyp_len/ref_len` returns exactly `1.0` whenever `ratio ≥ 1`, exactly
`0.0` whenever `ratio ≤ 0`, and for `0 < ratio < 1` returns
`exp(beta * ln(ratio)^2)` with `beta = ln(0.5)/ln(1.5)^2`; consequently the
penalty is exactly `0.5` when `hyp_len/ref_len = 2/3`. -/
theorem nist_length_penalty_spec (ref_len hyp_len : ℝ) (href : 0 < ref_len) :
    (1 ≤ hyp_len / ref_len → nist_length_penalty ref_len hyp_len = some 1) ∧
    (hyp_len / ref_len ≤ 0 → nist_length_penalty ref_len hyp_len = some 0) ∧
    (0 < hyp_len / ref_len → hyp_len / ref_len < 1 →
      nist_length_penalty ref_len hyp_len =
        some (Real.exp
          (Real.log 0.5 / Real.log 1.5 ^ 2 * Real.log (hyp_len / ref_len) ^ 2))) ∧
    (hyp_len / ref_len = 2 / 3 →
      nist_length_penalty ref_len hyp_len = some (1 / 2)) := by
  have hne : ref_len ≠ 0 := ne_of_gt href
  refine ⟨?_, ?_, ?_, ?_⟩
  · intro h
    unfold nist_length_penalty
    rw [if_neg hne, if_neg (by rintro ⟨-, h2⟩; linarith)]
    rw [min_eq_right h, max_eq_left (by norm_num)]
  · intro h
    unfold nist_length_penalty
    rw [if_neg hne, if_neg (by rintro ⟨h1, -⟩; linarith)]
    rw [min_eq_left (by linarith), max_eq_right h]
  · intro h1 h2
    unfold nist_length_penalty
    rw [if_neg hne, if_pos ⟨h1, h2⟩]
  · intro h
    have h1 : 0 < hyp_len / ref_len := by rw [h]; norm_num
    have h2 : hyp_len / ref_len < 1 := by rw [h]; norm_num
    unfold nist_length_penalty
    rw [if_neg hne, if_pos ⟨h1, h2⟩, h]
    have h15 : (1.5 : ℝ) = 3 / 2 := by norm_num
    have h05 : (0.5 : ℝ) = 1 / 2 := by norm_num
    have hlog23 : Real.log (2 / 3) = -Real.log (3 / 2) := by
      rw [← Real.log_inv]; norm_num
    have hlogpos : 0 < Real.log (3 / 2) := Real.log_pos (by norm_num)
    have hsq : Real.log (3 / 2) ^ 2 ≠ 0 := pow_ne_zero 2 (ne_of_gt hlogpos)
    rw [h15, h05, hlog23]
    rw [neg_pow, show ((-1 : ℝ)) ^ 2 = 1 by norm_num, one_mul,
      div_mul_cancel₀ _ hsq, Real.exp_log (by norm_num)]

/-- Witness for C3: at `ref_len = 3`, `hyp_len = 2` the hypotheses hold and
the penalty is exactly `1/2`. -/
theorem nist_length_penalty_spec_witness :
    nist_length_penalty 3 2 = some (1 / 2) :=
  (nist_length_penalty_spec 3 2 (by norm_num)).2.2.2 (by norm_num)

/-- The per-sentence, per-order n-gram list:
`Counter(ngrams(s, i)) if len(s) >= i else Counter()` (the counter is the
counting function of this list). -/
def sent_ngram_list (s : Sentence) (i : ℕ) : List (List Token) :=
  if i ≤ s.length then ngrams s i else []

/-- One entry of `nist_score_per_ref`: the 4-tuple
`(precision, numerator, denominator, ref_len)` computed for one reference.
The numerator sums `information_weights[ng] * count` over the clipped overlap
`hyp_ngrams_i & ref_ngrams_i`; summing over the distinct hypothesis n-grams
instead adds only zero terms (`weight * 0`). -/
structure RefScore where
  precision : ℝ
  numerator : ℝ
  denominator : ℕ
  ref_len : ℕ

/-- Python compares the 4-tuples lexicographically:
precision first, then numerator, then denominator, then reference length. -/
def RefScore.lt (a b : RefScore) : Prop :=
  a.precision < b.precision ∨ (a.precision = b.precision ∧
    (a.numerator < b.numerator ∨ (a.numerator = b.numerator ∧
      (a.denominator < b.denominator ∨ (a.denominator = b.denominator ∧
        a.ref_len < b.ref_len)))))

noncomputable instance refScoreLtDecidable (a b : RefScore) :
    Decidable (RefScore.lt a b) := by
  unfold RefScore.lt; infer_instance

/-- The four components as an honest lexicographic product, used to transfer
linear-order facts to `RefScore.lt`. -/
def RefScore.key (t : RefScore) : ℝ ×ₗ (ℝ ×ₗ (ℕ ×ₗ ℕ)) :=
  toLex (t.precision, toLex (t.numerator, toLex (t.denominator, t.ref_len)))

theorem RefScore.lt_iff_key (a b : RefScore) :
    RefScore.lt a b ↔ RefScore.key a < RefScore.key b := by
  simp [RefScore.lt, RefScore.key, Prod.Lex.lt_iff]

theorem RefScore.key_injective (a b : RefScore) (h : RefScore.key a = RefScore.key b) :
    a = b := by
  unfold RefScore.key at h
  cases a; cases b
  simp only [toLex_inj, Prod.mk.injEq] at h
  simp_all

theorem refScore_eq_of_not_lt (a b : RefScore)
    (h1 : ¬ RefScore.lt a b) (h2 : ¬ RefScore.lt b a) : a = b := by
  rw [RefScore.lt_iff_key] at h1 h2
  exact RefScore.key_injective a b (le_antisymm (not_lt.mp h2) (not_lt.mp h1))

theorem refScore_lt_irrefl (a : RefScore) : ¬ RefScore.lt a a := by
  rw [RefScore.lt_iff_key]; exact lt_irrefl _

theorem refScore_lt_trans (a b c : RefScore)
    (h1 : RefScore.lt a b) (h2 : RefScore.lt b c) : RefScore.lt a c := by
  rw [RefScore.lt_iff_key] at h1 h2 ⊢; exact lt_trans h1 h2

/-- Python's builtin `max` over a list: start from the first element and
replace the current maximum only on strictly greater items (`ValueError` on
an empty list; callers guard that case, the `[]` result here is junk). -/
noncomputable def list_max (l : List RefScore) : RefScore :=
  match l with
  | [] => ⟨0, 0, 0, 0⟩
  | x :: xs => xs.foldl (fun acc y => if RefScore.lt acc y then y else acc) x

theorem foldl_max_mem (x : RefScore) (xs : List RefScore) :
    xs.foldl (fun acc y => if RefScore.lt acc y then y else acc) x ∈ x :: xs := by
  induction xs generalizing x with
  | nil => simp [List.foldl]
  | cons y ys ih =>
    rw [List.foldl_cons]
    by_cases hxy : RefScore.lt x y
    · rw [if_pos hxy]
      rcases List.mem_cons.mp (ih y) with h | h
      · simp [h]
      · simp [List.mem_cons, h]
    · rw [if_neg hxy]
      rcases List.mem_cons.mp (ih x) with h | h
      · simp [h]
      · simp [List.mem_cons, h]

theorem foldl_max_not_lt (x : RefScore) (xs : List RefScore) :
    ∀ z ∈ x :: xs,
      ¬ RefScore.lt (xs.foldl (fun acc y => if RefScore.lt acc y then y else acc) x) z := by
  induction xs generalizing x with
  | nil =>
    intro z hz
    rw [List.mem_singleton] at hz
    subst hz
    exact refScore_lt_irrefl z
  | cons y ys ih =>
    intro z hz
    rw [List.foldl_cons]
    by_cases hxy : RefScore.lt x y
    · rw [if_pos hxy]
      have hres := ih y
      rcases List.mem_cons.mp hz with hzx | hz'
      · rw [hzx]
        intro hlt
        exact hres y (List.mem_cons_self y ys) (refScore_lt_trans _ _ _ hlt hxy)
      · exact hres z hz'
    · rw [if_neg hxy]
      have hres := ih x
      rcases List.mem_cons.mp hz with hzx | hz'
      · rw [hzx]
        exact hres x (List.mem_cons_self x ys)
      · rcases List.mem_cons.mp hz' with hzy | hz''
        · rw [hzy]
          by_cases hyx : RefScore.lt y x
          · intro hlt
            exact hres x (List.mem_cons_self x ys) (refScore_lt_trans _ _ _ hlt hyx)
          · have hxz : x = y := refScore_eq_of_not_lt x y hxy hyx
            rw [← hxz]
            exact hres x (List.mem_cons_self x ys)
        · exact hres z (List.mem_cons_of_mem x hz'')

theorem list_max_mem (l : List RefScore) (h : l ≠ []) : list_max l ∈ l := by
  match l with
  | [] => exact absurd rfl h
  | x :: xs => exact foldl_max_mem x xs

theorem list_max_not_lt (l : List RefScore) :
    ∀ z ∈ l, ¬ RefScore.lt (list_max l) z := by
  match l with
  | [] => intro z hz; simp at hz
  | x :: xs => exact foldl_max_not_lt x xs

/-- The value selected by Python's `max` is invariant under permutation of
the candidate list: the lexicographic order on the 4-tuples is total, so any
two maximal values are equal. -/
theorem list_max_perm (l l' : List RefScore) (hp : l.Perm l') :
    list_max l = list_max l' := by
  rcases eq_or_ne l [] with rfl | hne
  · rw [List.Perm.eq_nil (hp.symm)]
  · have hne' : l' ≠ [] := fun h => hne (List.Perm.eq_nil (h ▸ hp))
    have h1 : list_max l ∈ l' := hp.mem_iff.mp (list_max_mem l hne)
    have h2 : list_max l' ∈ l := hp.mem_iff.mpr (list_max_mem l' hne')
    exact refScore_eq_of_not_lt _ _
      (list_max_not_lt l _ h2) (list_max_not_lt l' _ h1)

/-- The body of the reference loop of `corpus_nist`: the 4-tuple
`(precision, numerator, denominator, ref_len)` appended to
`nist_score_per_ref` for one reference.  `numerator` is
`sum(information_weights[ng] * count for ng, count in ngram_overlaps.items())`
(summed here over the distinct hypothesis n-grams; n-grams outside the
clipped overlap have `min`-count `0` and contribute `weight * 0 = 0`),
`denominator` is `sum(hyp_ngrams_i.values())`, and
`precision = 0 if denominator == 0 else numerator / denominator`. -/
noncomputable def nist_score_tuple (list_of_references : Corpus) (n : ℕ)
    (hypothesis reference : Sentence) (i : ℕ) : RefScore :=
  let hyp_ngrams := sent_ngram_list hypothesis i
  let ref_ngrams := sent_ngram_list reference i
  let numerator : ℝ := (hyp_ngrams.dedup.map fun g =>
    information_weight list_of_references n g *
      ((min (hyp_ngrams.count g) (ref_ngrams.count g) : ℕ) : ℝ)).sum
  let denominator : ℕ := hyp_ngrams.length
  ⟨if denominator = 0 then 0 else numerator / (denominator : ℝ),
    numerator, denominator, reference.length⟩

/-- `max(nist_score_per_ref)`: the best reference 4-tuple for one
`(order, item)` pair. -/
noncomputable def nist_score_best (list_of_references : Corpus) (n : ℕ)
    (references : RefSet) (hypothesis : Sentence) (i : ℕ) : RefScore :=
  list_max (references.map fun reference =>
    nist_score_tuple list_of_references n hypothesis reference i)

/-- The mutable state of the aggregation loops of `corpus_nist`: the two
per-order counters `nist_precision_numerator_per_ngram` and
`nist_precision_denominator_per_ngram` (as functions from the order), and the
running totals `l_ref` and `l_sys`. -/
@[ext]
structure NistAccum where
  num : ℕ → ℝ
  den : ℕ → ℕ
  l_ref : ℕ
  l_sys : ℕ

/-- The body of the inner item loop of `corpus_nist` at order `i`: select the
best reference tuple, add its numerator and denominator to the order-`i`
counters, and add the selected reference length and the hypothesis length to
`l_ref` and `l_sys`. -/
noncomputable def nist_item_step (list_of_references : Corpus) (n i : ℕ)
    (st : NistAccum) (p : RefSet × Sentence) : NistAccum :=
  let t := nist_score_best list_of_references n p.1 p.2 i
  ⟨fun j => if j = i then st.num j + t.numerator else st.num j,
    fun j => if j = i then st.den j + t.denominator else st.den j,
    st.l_ref + t.ref_len,
    st.l_sys + p.2.length⟩

/-- The two nested aggregation loops of `corpus_nist`: order `i = 1..n`
outside, corpus items (`zip(list_of_references, hypotheses)`) inside. -/
noncomputable def nist_accumulate (list_of_references : Corpus)
    (hypotheses : List Sentence) (n : ℕ) : NistAccum :=
  (List.range n).foldl
    (fun st k =>
      (list_of_references.zip hypotheses).foldl
        (nist_item_step list_of_references n (k + 1)) st)
    ⟨fun _ => 0, fun _ => 0, 0, 0⟩

/-- The `corpus_nist` entry point.  `none` models every raising execution:
the failed `assert` on mismatched lengths, the `ValueError` of `max([])` on
an item with an empty reference set, the `ZeroDivisionError` of the final
per-order precision sum (whose keys are `1..n` exactly when at least one item
was processed), and the `ZeroDivisionError` of `nist_length_penalty` when the
accumulated reference length is zero. -/
noncomputable def corpus_nist (list_of_references : Corpus)
    (hypotheses : List Sentence) (n : ℕ) : Option ℝ :=
  if list_of_references.length ≠ hypotheses.length then none
  else if (list_of_references.zip hypotheses).any (fun p => p.1.isEmpty) then none
  else
    let st := nist_accumulate list_of_references hypotheses n
    if (list_of_references.zip hypotheses) ≠ [] ∧
        ∃ k ∈ List.range n, st.den (k + 1) = 0 then none
    else
      let nist_precision : ℝ :=
        if (list_of_references.zip hypotheses).isEmpty then 0
        else ((List.range n).map fun k =>
          st.num (k + 1) / (st.den (k + 1) : ℝ)).sum
      (nist_length_penalty (st.l_ref : ℝ) (st.l_sys : ℝ)).map
        fun penalty => nist_precision * penalty

/-- `sentence_nist` wraps a single item as a singleton corpus. -/
noncomputable def sentence_nist (references : RefSet) (hypothesis : Sentence)
    (n : ℕ) : Option ℝ :=
  corpus_nist [references] [hypothesis] n

/-- Summed selected numerators of one order across the corpus items. -/
noncomputable def order_num_sum (list_of_references : Corpus)
    (hypotheses : List Sentence) (n i : ℕ) : ℝ :=
  ((list_of_references.zip hypotheses).map fun p =>
    (nist_score_best list_of_references n p.1 p.2 i).numerator).sum

/-- Summed selected denominators of one order across the corpus items. -/
noncomputable def order_den_sum (list_of_references : Corpus)
    (hypotheses : List Sentence) (n i : ℕ) : ℕ :=
  ((list_of_references.zip hypotheses).map fun p =>
    (nist_score_best list_of_references n p.1 p.2 i).denominator).sum

/-- Summed selected reference lengths of one order across the corpus items. -/
noncomputable def order_ref_len_sum (list_of_references : Corpus)
    (hypotheses : List Sentence) (n i : ℕ) : ℕ :=
  ((list_of_references.zip hypotheses).map fun p =>
    (nist_score_best list_of_references n p.1 p.2 i).ref_len).sum

/-- Summed hypothesis lengths across the corpus items (independent of the
order). -/
def item_hyp_len_sum (list_of_references : Corpus)
    (hypotheses : List Sentence) : ℕ :=
  ((list_of_references.zip hypotheses).map fun p => p.2.length).sum

theorem foldl_nist_item_step (lor : Corpus) (n i : ℕ)
    (ps : List (RefSet × Sentence)) (st : NistAccum) :
    ps.foldl (nist_item_step lor n i) st =
      ⟨fun j => if j = i then
          st.num j + ((ps.map fun p => (nist_score_best lor n p.1 p.2 i).numerator).sum)
        else st.num j,
        fun j => if j = i then
          st.den j + ((ps.map fun p => (nist_score_best lor n p.1 p.2 i).denominator).sum)
        else st.den j,
        st.l_ref + ((ps.map fun p => (nist_score_best lor n p.1 p.2 i).ref_len).sum),
        st.l_sys + ((ps.map fun p => p.2.length).sum)⟩ := by
  induction ps generalizing st with
  | nil =>
    ext j <;> simp
  | cons p ps ih =>
    rw [List.foldl_cons, ih]
    unfold nist_item_step
    ext j
    · simp only [List.map_cons, List.sum_cons]
      by_cases hj : j = i <;> simp [hj]
      ring
    · simp only [List.map_cons, List.sum_cons]
      by_cases hj : j = i <;> simp [hj]
      omega
    · simp only [List.map_cons, List.sum_cons]
      omega
    · simp only [List.map_cons, List.sum_cons]
      omega

theorem foldl_range_nist (lor : Corpus) (hyps : List Sentence) (n m : ℕ) :
    (List.range m).foldl
        (fun st k => (lor.zip hyps).foldl (nist_item_step lor n (k + 1)) st)
        ⟨fun _ => 0, fun _ => 0, 0, 0⟩ =
      ⟨fun j => if 1 ≤ j ∧ j ≤ m then order_num_sum lor hyps n j else 0,
        fun j => if 1 ≤ j ∧ j ≤ m then order_den_sum lor hyps n j else 0,
        ((List.range m).map fun k => order_ref_len_sum lor hyps n (k + 1)).sum,
        m * item_hyp_len_sum lor hyps⟩ := by
  induction m with
  | zero =>
    ext j <;> simp
    · rw [if_neg (by omega)]
    · rw [if_neg (by omega)]
  | succ m ih =>
    rw [List.range_succ, List.foldl_append, ih]
    simp only [List.foldl_cons, List.foldl_nil]
    rw [foldl_nist_item_step]
    ext j
    · dsimp only
      show (if j = m + 1 then
          (if 1 ≤ j ∧ j ≤ m then order_num_sum lor hyps n j else 0) +
            order_num_sum lor hyps n (m + 1)
        else (if 1 ≤ j ∧ j ≤ m then order_num_sum lor hyps n j else 0)) =
        (if 1 ≤ j ∧ j ≤ m + 1 then order_num_sum lor hyps n j else 0)
      by_cases hj : j = m + 1
      · subst hj
        rw [if_pos rfl, if_neg (by omega), if_pos (by omega), zero_add]
      · rw [if_neg hj]
        by_cases hj2 : 1 ≤ j ∧ j ≤ m
        · rw [if_pos hj2, if_pos (by omega)]
        · rw [if_neg hj2, if_neg (by omega)]
    · dsimp only
      show (if j = m + 1 then
          (if 1 ≤ j ∧ j ≤ m then order_den_sum lor hyps n j else 0) +
            order_den_sum lor hyps n (m + 1)
        else (if 1 ≤ j ∧ j ≤ m then order_den_sum lor hyps n j else 0)) =
        (if 1 ≤ j ∧ j ≤ m + 1 then order_den_sum lor hyps n j else 0)
      by_cases hj : j = m + 1
      · subst hj
        rw [if_pos rfl, if_neg (by omega), if_pos (by omega), zero_add]
      · rw [if_neg hj]
        by_cases hj2 : 1 ≤ j ∧ j ≤ m
        · rw [if_pos hj2, if_pos (by omega)]
        · rw [if_neg hj2, if_neg (by omega)]
    · dsimp only
      show (((List.range m).map fun k => order_ref_len_sum lor hyps n (k + 1)).sum) +
          order_ref_len_sum lor hyps n (m + 1) =
        (((List.range m ++ [m]).map fun k => order_ref_len_sum lor hyps n (k + 1)).sum)
      rw [List.map_append, List.sum_append]
      simp
    · dsimp only
      show m * item_hyp_len_sum lor hyps + item_hyp_len_sum lor hyps =
        (m + 1) * item_hyp_len_sum lor hyps
      ring

theorem nist_accumulate_eq (lor : Corpus) (hyps : List Sentence) (n : ℕ) :
    nist_accumulate lor hyps n =
      ⟨fun j => if 1 ≤ j ∧ j ≤ n then order_num_sum lor hyps n j else 0,
        fun j => if 1 ≤ j ∧ j ≤ n then order_den_sum lor hyps n j else 0,
        ((List.range n).map fun k => order_ref_len_sum lor hyps n (k + 1)).sum,
        n * item_hyp_len_sum lor hyps⟩ :=
  foldl_range_nist lor hyps n n

theorem nist_accumulate_num (lor : Corpus) (hyps : List Sentence) (n k : ℕ)
    (hk : k < n) :
    (nist_accumulate lor hyps n).num (k + 1) = order_num_sum lor hyps n (k + 1) := by
  rw [nist_accumulate_eq]
  exact if_pos (by omega)

theorem nist_accumulate_den (lor : Corpus) (hyps : List Sentence) (n k : ℕ)
    (hk : k < n) :
    (nist_accumulate lor hyps n).den (k + 1) = order_den_sum lor hyps n (k + 1) := by
  rw [nist_accumulate_eq]
  exact if_pos (by omega)

theorem length_of_mem_ngrams (s : Sentence) (i : ℕ) (g : List Token)
    (h : g ∈ ngrams s i) : g.length = i := by
  unfold ngrams at h
  rcases List.mem_map.mp h with ⟨j, hj, rfl⟩
  rw [List.mem_range] at hj
  rw [List.length_take, List.length_drop]
  omega

theorem sent_ngram_list_eq (s : Sentence) (i : ℕ) :
    sent_ngram_list s i = ngrams s i := by
  unfold sent_ngram_list
  by_cases h : i ≤ s.length
  · rw [if_pos h]
  · rw [if_neg h]
    unfold ngrams
    rw [show s.length + 1 - i = 0 by omega, List.range_zero, List.map_nil]

theorem ngrams_length (s : Sentence) (i : ℕ) :
    (ngrams s i).length = s.length + 1 - i := by
  unfold ngrams
  rw [List.length_map, List.length_range]

theorem list_sum_range_eq_single (f : ℕ → ℕ) (n k0 : ℕ)
    (h0 : ∀ j, j ≠ k0 → f j = 0) :
    ((List.range n).map f).sum = if k0 < n then f k0 else 0 := by
  induction n with
  | zero => simp
  | succ n ih =>
    rw [List.range_succ, List.map_append, List.sum_append, ih]
    rcases eq_or_ne n k0 with rfl | hne
    · simp
    · simp only [List.map_cons, List.map_nil, List.sum_cons, List.sum_nil, add_zero]
      rw [h0 n hne]
      split_ifs <;> omega

theorem ngram_freq_nil (lor : Corpus) (n : ℕ) : ngram_freq lor n [] = 0 := by
  unfold ngram_freq
  apply List.sum_eq_zero
  intro x hx
  rcases List.mem_map.mp hx with ⟨refs, -, rfl⟩
  apply List.sum_eq_zero
  intro y hy
  rcases List.mem_map.mp hy with ⟨ref, -, rfl⟩
  apply List.sum_eq_zero
  intro z hz
  rcases List.mem_map.mp hz with ⟨k, -, rfl⟩
  rw [List.count_eq_zero]
  intro hmem
  have := length_of_mem_ngrams ref (k + 1) [] hmem
  simp at this

/-- Every occurrence of an order-`i` window is also an occurrence of its
order-`(i-1)` prefix window at the same position. -/
theorem count_ngrams_dropLast (s : Sentence) (g : List Token) (i : ℕ)
    (h2 : 2 ≤ i) :
    (ngrams s i).count g ≤ (ngrams s (i - 1)).count g.dropLast := by
  unfold ngrams
  rw [List.count_eq_countP, List.count_eq_countP, List.countP_map, List.countP_map]
  refine le_trans (List.countP_mono_left ?_)
    (List.Sublist.countP_le _ (List.range_sublist.mpr (by omega)))
  intro j hj hpj
  rw [List.mem_range] at hj
  simp only [Function.comp_apply, beq_iff_eq] at hpj ⊢
  subst hpj
  rw [List.dropLast_eq_take, List.length_take, List.length_drop, List.take_take]
  congr 1
  omega

theorem count_le_ngram_freq (lor : Corpus) (n : ℕ) (refs : RefSet)
    (ref : Sentence) (g : List Token) (k : ℕ) (hrefs : refs ∈ lor)
    (href : ref ∈ refs) (hk : k < n) :
    (ngrams ref (k + 1)).count g ≤ ngram_freq lor n g := by
  unfold ngram_freq
  calc (ngrams ref (k + 1)).count g
      ≤ ((List.range n).map fun j => (ngrams ref (j + 1)).count g).sum :=
        List.le_sum_of_mem (List.mem_map.mpr ⟨k, List.mem_range.mpr hk, rfl⟩)
    _ ≤ (refs.map fun reference =>
          ((List.range n).map fun j => (ngrams reference (j + 1)).count g).sum).sum :=
        List.le_sum_of_mem (List.mem_map.mpr ⟨ref, href, rfl⟩)
    _ ≤ _ := List.le_sum_of_mem (List.mem_map.mpr ⟨refs, hrefs, rfl⟩)

/-- An n-gram of positive order occurs at most `total_reference_words` times:
within one reference it has at most `length` occurrences, summed over exactly
one order slot. -/
theorem ngram_freq_le_total (lor : Corpus) (n : ℕ) (g : List Token)
    (h1 : 1 ≤ g.length) : ngram_freq lor n g ≤ total_reference_words lor := by
  unfold ngram_freq total_reference_words
  apply List.sum_le_sum
  intro refs _
  apply List.sum_le_sum
  intro ref _
  rw [list_sum_range_eq_single _ n (g.length - 1) (fun j hj => by
    rw [List.count_eq_zero]
    intro hmem
    have := length_of_mem_ngrams ref (j + 1) g hmem
    omega)]
  split_ifs with h
  · calc (ngrams ref (g.length - 1 + 1)).count g
        ≤ (ngrams ref (g.length - 1 + 1)).length := List.count_le_length g _
      _ ≤ ref.length := by rw [ngrams_length]; omega
  · exact Nat.zero_le _

/-- The global count of an n-gram of order at least 2 never exceeds the
global count of its length-`(i-1)` prefix. -/
theorem ngram_freq_le_dropLast (lor : Corpus) (n : ℕ) (g : List Token)
    (h2 : 2 ≤ g.length) : ngram_freq lor n g ≤ ngram_freq lor n g.dropLast := by
  unfold ngram_freq
  apply List.sum_le_sum
  intro refs _
  apply List.sum_le_sum
  intro ref _
  rw [list_sum_range_eq_single _ n (g.length - 1) (fun j hj => by
    rw [List.count_eq_zero]
    intro hmem
    have := length_of_mem_ngrams ref (j + 1) g hmem
    omega)]
  rw [list_sum_range_eq_single _ n (g.length - 2) (fun j hj => by
    rw [List.count_eq_zero]
    intro hmem
    have := length_of_mem_ngrams ref (j + 1) g.dropLast hmem
    rw [List.length_dropLast] at this
    omega)]
  split_ifs with ha hb
  · calc (ngrams ref (g.length - 1 + 1)).count g
        ≤ (ngrams ref (g.length - 1)).count g.dropLast := by
          rw [show g.length - 1 + 1 = g.length by omega]
          exact count_ngrams_dropLast ref g g.length h2
      _ = (ngrams ref (g.length - 2 + 1)).count g.dropLast := by
          rw [show g.length - 2 + 1 = g.length - 1 by omega]
  · omega
  · exact Nat.zero_le _
  · exact Nat.zero_le _

/-- Weights of n-grams that actually occur in the reference corpus are
non-negative: the prefix count dominates the n-gram count, and
`total_reference_words` dominates every count. -/
theorem information_weight_nonneg (lor : Corpus) (n : ℕ) (g : List Token)
    (h1 : 1 ≤ g.length) (hpos : 0 < ngram_freq lor n g) :
    0 ≤ information_weight lor n g := by
  unfold information_weight
  by_cases hpre : 0 < ngram_freq lor n g.dropLast
  · rw [if_pos hpre]
    apply Real.logb_nonneg (by norm_num)
    rw [one_le_div (by exact_mod_cast hpos)]
    have hg2 : 2 ≤ g.length := by
      by_contra hcon
      have : g.dropLast = [] := by
        have := List.length_dropLast g
        have hz : g.dropLast.length = 0 := by omega
        exact List.length_eq_zero.mp hz
      rw [this, ngram_freq_nil] at hpre
      omega
    exact_mod_cast ngram_freq_le_dropLast lor n g hg2
  · rw [if_neg hpre]
    apply Real.logb_nonneg (by norm_num)
    rw [one_le_div (by exact_mod_cast hpos)]
    exact_mod_cast ngram_freq_le_total lor n g h1

theorem nist_score_tuple_num_nonneg (lor : Corpus) (n : ℕ) (hyp ref : Sentence)
    (i : ℕ) (h1 : 1 ≤ i) (hin : i ≤ n) (hmem : ∃ refs ∈ lor, ref ∈ refs) :
    0 ≤ (nist_score_tuple lor n hyp ref i).numerator := by
  show 0 ≤ ((sent_ngram_list hyp i).dedup.map fun g =>
    information_weight lor n g *
      ((min ((sent_ngram_list hyp i).count g)
        ((sent_ngram_list ref i).count g) : ℕ) : ℝ)).sum
  apply List.sum_nonneg
  intro x hx
  rcases List.mem_map.mp hx with ⟨g, hg, rfl⟩
  rcases Nat.eq_zero_or_pos (min ((sent_ngram_list hyp i).count g)
    ((sent_ngram_list ref i).count g)) with hmin | hmin
  · rw [hmin]
    simp
  · have hrc : 0 < (sent_ngram_list ref i).count g :=
      lt_of_lt_of_le hmin (min_le_right _ _)
    have hgmem : g ∈ ngrams ref i := by
      rw [← sent_ngram_list_eq]
      exact List.count_pos_iff.mp hrc
    have hglen : g.length = i := length_of_mem_ngrams ref i g hgmem
    rcases hmem with ⟨refs, hrefs, href⟩
    have hfreq : 0 < ngram_freq lor n g := by
      have hle := count_le_ngram_freq lor n refs ref g (i - 1) hrefs href (by omega)
      rw [show i - 1 + 1 = i by omega] at hle
      have hc : 0 < (ngrams ref i).count g := List.count_pos_iff.mpr hgmem
      omega
    exact mul_nonneg (information_weight_nonneg lor n g (by omega) hfreq)
      (by positivity)

theorem nist_score_best_num_nonneg (lor : Corpus) (n : ℕ) (refs : RefSet)
    (hyp : Sentence) (i : ℕ) (h1 : 1 ≤ i) (hin : i ≤ n) (hrefs : refs ∈ lor) :
    0 ≤ (nist_score_best lor n refs hyp i).numerator := by
  unfold nist_score_best
  rcases eq_or_ne refs [] with rfl | hne
  · simp [list_max]
  · have hmem := list_max_mem (refs.map fun reference =>
      nist_score_tuple lor n hyp reference i) (by simpa using hne)
    rcases List.mem_map.mp hmem with ⟨ref, href, heq⟩
    rw [← heq]
    exact nist_score_tuple_num_nonneg lor n hyp ref i h1 hin ⟨refs, hrefs, href⟩

theorem order_num_sum_nonneg (lor : Corpus) (hyps : List Sentence) (n i : ℕ)
    (h1 : 1 ≤ i) (hin : i ≤ n) : 0 ≤ order_num_sum lor hyps n i := by
  unfold order_num_sum
  apply List.sum_nonneg
  intro x hx
  rcases List.mem_map.mp hx with ⟨p, hp, rfl⟩
  exact nist_score_best_num_nonneg lor n p.1 p.2 i h1 hin (List.of_mem_zip hp).1

theorem nist_length_penalty_nonneg (ref_len hyp_len p : ℝ)
    (h : nist_length_penalty ref_len hyp_len = some p) : 0 ≤ p := by
  unfold nist_length_penalty at h
  split_ifs at h with h1 h2
  · rw [Option.some_inj] at h
    exact h ▸ (Real.exp_pos _).le
  · rw [Option.some_inj] at h
    exact h ▸ le_max_right _ _

/-- C7: whenever `corpus_nist` returns a score, the score is non-negative:
every selected numerator is a sum of products of non-negative information
weights with non-negative clipped counts, every per-order precision is a
quotient of non-negative numbers, and the length penalty is non-negative. -/
theorem corpus_nist_nonneg (lor : Corpus) (hyps : List Sentence) (n : ℕ)
    (x : ℝ) (h : corpus_nist lor hyps n = some x) : 0 ≤ x := by
  simp only [corpus_nist] at h
  by_cases h1 : lor.length ≠ hyps.length
  · rw [if_pos h1] at h
    simp at h
  · rw [if_neg h1] at h
    by_cases h2 : ((lor.zip hyps).any fun p => p.1.isEmpty) = true
    · rw [if_pos h2] at h
      simp at h
    · rw [if_neg h2] at h
      by_cases h3 : (lor.zip hyps) ≠ [] ∧
          ∃ k ∈ List.range n, (nist_accumulate lor hyps n).den (k + 1) = 0
      · rw [if_pos h3] at h
        simp at h
      · rw [if_neg h3] at h
        rw [Option.map_eq_some'] at h
        rcases h with ⟨pen, hpen, hx⟩
        rw [← hx]
        apply mul_nonneg _ (nist_length_penalty_nonneg _ _ _ hpen)
        by_cases hemp : (lor.zip hyps).isEmpty
        · rw [if_pos hemp]
        · rw [if_neg hemp]
          apply List.sum_nonneg
          intro y hy
          rcases List.mem_map.mp hy with ⟨k, hk, rfl⟩
          rw [List.mem_range] at hk
          rw [nist_accumulate_num lor hyps n k hk]
          exact div_nonneg
            (order_num_sum_nonneg lor hyps n (k + 1) (by omega) (by omega))
            (Nat.cast_nonneg _)

/-- C9: when the number of reference sets differs from the number of
hypotheses, the `assert` at the top of `corpus_nist` fails: no score (and no
partial result) is produced. -/
theorem corpus_nist_length_mismatch (lor : Corpus) (hyps : List Sentence)
    (n : ℕ) (h : lor.length ≠ hyps.length) : corpus_nist lor hyps n = none := by
  simp only [corpus_nist]
  rw [if_pos h]

/-- Witness for C9: one hypothesis and no reference set. -/
theorem corpus_nist_length_mismatch_witness :
    corpus_nist [] [[0]] 1 = none :=
  corpus_nist_length_mismatch [] [[0]] 1 (by simp)

/-- C10: a corpus containing an item with an empty reference set never
produces a score: either the length `assert` fails, or `max` is applied to
the empty list `nist_score_per_ref`, raising `ValueError`. -/
theorem corpus_nist_empty_refset (lor : Corpus) (hyps : List Sentence) (n : ℕ)
    (h : [] ∈ lor) : corpus_nist lor hyps n = none := by
  simp only [corpus_nist]
  by_cases h1 : lor.length ≠ hyps.length
  · rw [if_pos h1]
  · rw [if_neg h1]
    push_neg at h1
    have hany : ((lor.zip hyps).any fun p => p.1.isEmpty) = true := by
      rw [List.any_eq_true]
      rcases List.mem_iff_getElem.mp h with ⟨idx, hidx, hval⟩
      have hlen : idx < (lor.zip hyps).length := by
        rw [List.length_zip]
        omega
      refine ⟨(lor.zip hyps)[idx], List.getElem_mem hlen, ?_⟩
      rw [List.getElem_zip]
      simp [hval]
    rw [if_pos hany]

/-- Witness for C10: a single item whose reference set is empty. -/
theorem corpus_nist_empty_refset_witness :
    corpus_nist [[]] [[0]] 1 = none :=
  corpus_nist_empty_refset [[]] [[0]] 1 (by simp)

/-- C8: when the accumulated selected-reference length `l_ref` is zero,
`corpus_nist` produces no score: every earlier exit is already `none`, and
the final call `nist_length_penalty(l_ref, l_sys)` divides by zero. -/
theorem corpus_nist_zero_ref_len (lor : Corpus) (hyps : List Sentence) (n : ℕ)
    (h : (nist_accumulate lor hyps n).l_ref = 0) :
    corpus_nist lor hyps n = none := by
  simp only [corpus_nist]
  by_cases h1 : lor.length ≠ hyps.length
  · rw [if_pos h1]
  · rw [if_neg h1]
    by_cases h2 : ((lor.zip hyps).any fun p => p.1.isEmpty) = true
    · rw [if_pos h2]
    · rw [if_neg h2]
      by_cases h3 : (lor.zip hyps) ≠ [] ∧
          ∃ k ∈ List.range n, (nist_accumulate lor hyps n).den (k + 1) = 0
      · rw [if_pos h3]
      · rw [if_neg h3]
        have hpen : nist_length_penalty ((nist_accumulate lor hyps n).l_ref : ℝ)
            ((nist_accumulate lor hyps n).l_sys : ℝ) = none := by
          unfold nist_length_penalty
          rw [h]
          rw [if_pos (by norm_num)]
        rw [hpen, Option.map_none']

/-- A non-empty corpus on which some order `1..n` accumulates a zero summed
denominator reaches the final per-order precision sum with a zero divisor,
whose integer division `0 / 0` raises `ZeroDivisionError`. -/
theorem corpus_nist_den_zero (lor : Corpus) (hyps : List Sentence) (n : ℕ)
    (hlen : lor.length = hyps.length) (hne : lor ≠ [])
    (hk : ∃ k ∈ List.range n, order_den_sum lor hyps n (k + 1) = 0) :
    corpus_nist lor hyps n = none := by
  simp only [corpus_nist]
  rw [if_neg (by omega)]
  by_cases h2 : ((lor.zip hyps).any fun p => p.1.isEmpty) = true
  · rw [if_pos h2]
  · rw [if_neg h2]
    have h3 : (lor.zip hyps) ≠ [] ∧
        ∃ k ∈ List.range n, (nist_accumulate lor hyps n).den (k + 1) = 0 := by
      constructor
      · intro hz
        have hlz := List.length_zip lor hyps
        rw [hz] at hlz
        simp only [List.length_nil] at hlz
        have hl0 : lor.length = 0 := by omega
        exact hne (List.length_eq_zero.mp hl0)
      · rcases hk with ⟨k, hkr, hzero⟩
        refine ⟨k, hkr, ?_⟩
        rw [nist_accumulate_den lor hyps n k (List.mem_range.mp hkr)]
        exact hzero
    rw [if_pos h3]

/-- C1 (amended): on a non-empty, length-matched corpus, an order `i ∈ [1,n]`
whose summed denominator is zero (no hypothesis n-grams of that order across
the corpus) does NOT contribute `0` to the precision sum: the final per-order
division `0 / 0` raises `ZeroDivisionError`, so `corpus_nist` returns no
score; in particular an empty hypothesis makes `corpus_nist` raise rather
than return `0.0`. -/
theorem corpus_nist_degenerate_order_raises (lor : Corpus)
    (hyps : List Sentence) (n : ℕ) (hlen : lor.length = hyps.length)
    (hne : lor ≠ [])
    (hk : ∃ k ∈ List.range n, order_den_sum lor hyps n (k + 1) = 0) :
    corpus_nist lor hyps n = none :=
  corpus_nist_den_zero lor hyps n hlen hne hk

/-- Counterexample for C1 as stated: the empty hypothesis against the
non-empty reference set `[[0]]` does not produce the score `0.0`; the
computation fails (`ZeroDivisionError` at the order-1 precision `0 / 0`). -/
theorem corpus_nist_empty_hyp_counterexample :
    corpus_nist [[[0]]] [[]] 1 = none :=
  corpus_nist_den_zero [[[0]]] [[]] 1 rfl (by decide) ⟨0, by simp, rfl⟩

/-- Witness for the amended C1: a 2-token reference with an empty hypothesis
at `n = 2` satisfies the hypotheses, and the result is `none`. -/
theorem corpus_nist_degenerate_order_raises_witness :
    corpus_nist [[[1, 1]]] [[]] 2 = none :=
  corpus_nist_degenerate_order_raises [[[1, 1]]] [[]] 2 rfl (by decide)
    ⟨0, by simp, rfl⟩

/-- Witness for C8: a corpus whose only reference is the empty sentence
accumulates `l_ref = 0` and yields no score. -/
theorem corpus_nist_zero_ref_len_witness :
    corpus_nist [[[]]] [[0]] 1 = none :=
  corpus_nist_zero_ref_len [[[]]] [[0]] 1 rfl

theorem corpus_nist_example_eval : corpus_nist [[[0]]] [[0]] 1 = some 0 := by
  simp only [corpus_nist]
  rw [if_neg (by decide)]
  rw [if_neg (by decide)]
  rw [if_neg ?hc]
  case hc =>
    rintro ⟨-, k, hk, hden⟩
    simp only [List.mem_range] at hk
    interval_cases k
    rw [nist_accumulate_den _ _ _ 0 (by omega)] at hden
    exact absurd hden (by decide)
  have hlref : (nist_accumulate [[[0]]] [[0]] 1).l_ref = 1 := rfl
  have hlsys : (nist_accumulate [[[0]]] [[0]] 1).l_sys = 1 := rfl
  rw [hlref, hlsys]
  have hpen : nist_length_penalty ((1 : ℕ) : ℝ) ((1 : ℕ) : ℝ) = some 1 := by
    unfold nist_length_penalty
    norm_num
  rw [hpen]
  rw [Option.map_some']
  congr 1
  rw [if_neg (by decide)]
  rw [show List.range 1 = [0] from rfl]
  simp only [List.map_cons, List.map_nil, List.sum_cons, List.sum_nil, add_zero]
  rw [nist_accumulate_num _ _ _ 0 (by omega), nist_accumulate_den _ _ _ 0 (by omega)]
  have hden1 : order_den_sum [[[0]]] [[0]] 1 1 = 1 := rfl
  have hnum1 : order_num_sum [[[0]]] [[0]] 1 1 = information_weight [[[0]]] 1 [0] := by
    unfold order_num_sum nist_score_best nist_score_tuple
    simp [list_max, sent_ngram_list, ngrams, List.range_succ]
  have hw : information_weight [[[0]]] 1 [0] = 0 := by
    unfold information_weight
    rw [if_neg (by decide)]
    rw [show total_reference_words [[[0]]] = 1 from rfl,
      show ngram_freq [[[0]]] 1 [0] = 1 from rfl]
    norm_num [Real.logb_one]
  rw [hden1, hnum1, hw]
  norm_num

/-- Witness for C7: the one-token corpus scores exactly `0`, which is
non-negative. -/
theorem corpus_nist_nonneg_witness :
    corpus_nist [[[0]]] [[0]] 1 = some 0 ∧ (0 : ℝ) ≤ 0 :=
  ⟨corpus_nist_example_eval,
    corpus_nist_nonneg [[[0]]] [[0]] 1 0 corpus_nist_example_eval⟩

/-- C2: the length totals used for the penalty accumulate once per
`(order, item)` pair: after processing orders `1..n`, `l_sys` is `n` times
the summed hypothesis length, and `l_ref` is the sum over all `n` orders of
the per-item selected reference lengths — an `n`-fold accumulation, not a
single corpus-length measurement. -/
theorem nist_length_totals (lor : Corpus) (hyps : List Sentence) (n : ℕ)
    (hlen : lor.length = hyps.length) :
    (nist_accumulate lor hyps n).l_sys = n * (hyps.map List.length).sum ∧
    (nist_accumulate lor hyps n).l_ref =
      ((List.range n).map fun k => order_ref_len_sum lor hyps n (k + 1)).sum := by
  rw [nist_accumulate_eq]
  refine ⟨?_, rfl⟩
  show n * item_hyp_len_sum lor hyps = n * (hyps.map List.length).sum
  congr 1
  unfold item_hyp_len_sum
  rw [show (fun p : RefSet × Sentence => p.2.length) =
    (List.length ∘ Prod.snd) from rfl]
  rw [← List.map_map]
  rw [List.map_snd_zip lor hyps (le_of_eq hlen.symm)]

/-- Witness for C2: one item with a 1-token reference and a 2-token
hypothesis at `n = 2` accumulates `l_sys = 2 * 2`. -/
theorem nist_length_totals_witness :
    (nist_accumulate [[[0]]] [[0, 1]] 2).l_sys =
      2 * (([[0, 1]] : List Sentence).map List.length).sum :=
  (nist_length_totals [[[0]]] [[0, 1]] 2 rfl).1

/-- C4: the information weight of a table n-gram `w` is
`log2(total_reference_words / count(w))` when `w` has order 1 (its prefix,
the empty tuple, is never a key) or when its length-`(i-1)` prefix is absent,
and `log2(count(prefix(w)) / count(w))` when the prefix is present. -/
theorem information_weight_spec (lor : Corpus) (n : ℕ) (w : List Token)
    (hw : 0 < ngram_freq lor n w) :
    ((w.length = 1 ∨ ngram_freq lor n w.dropLast = 0) →
      information_weight lor n w =
        Real.logb 2 ((total_reference_words lor : ℝ) /
          (ngram_freq lor n w : ℝ))) ∧
    (0 < ngram_freq lor n w.dropLast →
      information_weight lor n w =
        Real.logb 2 ((ngram_freq lor n w.dropLast : ℝ) /
          (ngram_freq lor n w : ℝ))) := by
  constructor
  · intro h
    unfold information_weight
    have hz : ngram_freq lor n w.dropLast = 0 := by
      rcases h with h1 | h2
      · rcases List.length_eq_one.mp h1 with ⟨a, rfl⟩
        simp only [List.dropLast_single]
        exact ngram_freq_nil lor n
      · exact h2
    rw [hz]
    rw [if_neg (lt_irrefl 0)]
  · intro h
    unfold information_weight
    rw [if_pos h]

/-- Witness for C4: in the corpus with the single reference `[0, 1]` at
`n = 2`, the bigram `[0, 1]` is in the table, its unigram prefix `[0]` is
present, and the weight is the prefix-ratio log. -/
theorem information_weight_spec_witness :
    0 < ngram_freq [[[0, 1]]] 2 [0, 1] ∧
    information_weight [[[0, 1]]] 2 [0, 1] =
      Real.logb 2 ((ngram_freq [[[0, 1]]] 2 ([0, 1] : List Token).dropLast : ℝ) /
        (ngram_freq [[[0, 1]]] 2 [0, 1] : ℝ)) :=
  ⟨by decide, (information_weight_spec [[[0, 1]]] 2 [0, 1] (by decide)).2 (by decide)⟩

/-- C6: in a corpus whose references are the single sentence `r` of length
`L`, every n-gram of order `i ∈ [1, n]` is counted exactly as often as the
width-`i` sliding window produces it, and the total order-`i` occurrence
count in the table is `L + 1 - i` (that is, `max(0, L - i + 1)`); for `i = 1`
the unigram counts sum to `L`. -/
theorem count_decEq_eq (l : List (List Token)) (a : List Token) :
    @List.count (List Token) instBEqOfDecidableEq a l = l.count a := by
  induction l with
  | nil => rfl
  | cons b l ih =>
    simp only [List.count_cons]
    rw [ih]
    by_cases h : b = a <;> simp [h]

theorem ngram_freq_single_reference (r : Sentence) (n i : ℕ)
    (h1 : 1 ≤ i) (h2 : i ≤ n) :
    (∀ g : List Token, g.length = i →
      ngram_freq [[r]] n g = (ngrams r i).count g) ∧
    ((ngrams r i).dedup.map fun g => ngram_freq [[r]] n g).sum =
      r.length + 1 - i := by
  have hpt : ∀ g : List Token, g.length = i →
      ngram_freq [[r]] n g = (ngrams r i).count g := by
    intro g hg
    unfold ngram_freq
    simp only [List.map_cons, List.map_nil, List.sum_cons, List.sum_nil, add_zero]
    rw [list_sum_range_eq_single _ n (i - 1) (fun j hj => by
      rw [List.count_eq_zero]
      intro hmem
      have := length_of_mem_ngrams r (j + 1) g hmem
      omega)]
    rw [if_pos (by omega), show i - 1 + 1 = i by omega]
  refine ⟨hpt, ?_⟩
  rw [List.map_congr_left (fun g hgmem =>
    (hpt g (length_of_mem_ngrams r i g (List.mem_dedup.mp hgmem))).trans
      (count_decEq_eq (ngrams r i) g).symm)]
  rw [List.sum_map_count_dedup_eq_length]
  exact ngrams_length r i

/-- Witness for C6: the reference `[0, 1, 0]` (length 3) has `3 + 1 - 2 = 2`
bigram occurrences in the table. -/
theorem ngram_freq_single_reference_witness :
    ((ngrams [0, 1, 0] 2).dedup.map fun g => ngram_freq [[[0, 1, 0]]] 2 g).sum =
      ([0, 1, 0] : Sentence).length + 1 - 2 :=
  (ngram_freq_single_reference [0, 1, 0] 2 2 (by omega) (by omega)).2

theorem ngram_freq_perm (lor lor' : Corpus) (n : ℕ) (g : List Token)
    (hp : List.Forall₂ List.Perm lor lor') :
    ngram_freq lor n g = ngram_freq lor' n g := by
  unfold ngram_freq
  induction hp with
  | nil => rfl
  | cons h hs ih =>
    simp only [List.map_cons, List.sum_cons]
    rw [List.Perm.sum_eq (h.map _), ih]

theorem total_reference_words_perm (lor lor' : Corpus)
    (hp : List.Forall₂ List.Perm lor lor') :
    total_reference_words lor = total_reference_words lor' := by
  unfold total_reference_words
  induction hp with
  | nil => rfl
  | cons h hs ih =>
    simp only [List.map_cons, List.sum_cons]
    rw [List.Perm.sum_eq (h.map _), ih]

theorem information_weight_perm (lor lor' : Corpus) (n : ℕ)
    (hp : List.Forall₂ List.Perm lor lor') (g : List Token) :
    information_weight lor n g = information_weight lor' n g := by
  unfold information_weight
  rw [ngram_freq_perm lor lor' n g.dropLast hp, ngram_freq_perm lor lor' n g hp,
    total_reference_words_perm lor lor' hp]

theorem nist_score_tuple_perm (lor lor' : Corpus) (n : ℕ)
    (hp : List.Forall₂ List.Perm lor lor') (hyp ref : Sentence) (i : ℕ) :
    nist_score_tuple lor n hyp ref i = nist_score_tuple lor' n hyp ref i := by
  have hwmap : ((sent_ngram_list hyp i).dedup.map fun g =>
      information_weight lor n g * ((min ((sent_ngram_list hyp i).count g)
        ((sent_ngram_list ref i).count g) : ℕ) : ℝ)) =
      ((sent_ngram_list hyp i).dedup.map fun g =>
      information_weight lor' n g * ((min ((sent_ngram_list hyp i).count g)
        ((sent_ngram_list ref i).count g) : ℕ) : ℝ)) :=
    List.map_congr_left fun g _ => by rw [information_weight_perm lor lor' n hp g]
  simp only [nist_score_tuple]
  rw [hwmap]

theorem nist_score_best_perm (lor lor' : Corpus) (n : ℕ)
    (hp : List.Forall₂ List.Perm lor lor') (refs refs' : RefSet)
    (hrefs : refs.Perm refs') (hyp : Sentence) (i : ℕ) :
    nist_score_best lor n refs hyp i = nist_score_best lor' n refs' hyp i := by
  unfold nist_score_best
  have h1 : refs.map (fun reference => nist_score_tuple lor n hyp reference i) =
      refs.map (fun reference => nist_score_tuple lor' n hyp reference i) :=
    List.map_congr_left fun ref _ => nist_score_tuple_perm lor lor' n hp hyp ref i
  rw [h1]
  exact list_max_perm _ _ (hrefs.map _)

theorem zip_forall2 (lor lor' : Corpus) (hyps : List Sentence)
    (hp : List.Forall₂ List.Perm lor lor') :
    List.Forall₂ (fun p q : RefSet × Sentence => p.1.Perm q.1 ∧ p.2 = q.2)
      (lor.zip hyps) (lor'.zip hyps) := by
  induction hp generalizing hyps with
  | nil => exact List.Forall₂.nil
  | cons h hs ih =>
    cases hyps with
    | nil =>
      rw [List.zip_nil_right, List.zip_nil_right]
      exact List.Forall₂.nil
    | cons hyp hyps =>
      exact List.Forall₂.cons ⟨h, rfl⟩ (ih hyps)

theorem forall2_map_eq {α β γ : Type} {R : α → β → Prop} {f : α → γ}
    {g : β → γ} {l : List α} {l' : List β} (h : List.Forall₂ R l l')
    (hfg : ∀ a b, R a b → f a = g b) : l.map f = l'.map g := by
  induction h with
  | nil => rfl
  | cons hab hs ih =>
    simp only [List.map_cons]
    rw [hfg _ _ hab, ih]

theorem nist_accumulate_perm (lor lor' : Corpus) (hyps : List Sentence)
    (n : ℕ) (hp : List.Forall₂ List.Perm lor lor') :
    nist_accumulate lor hyps n = nist_accumulate lor' hyps n := by
  have hzip := zip_forall2 lor lor' hyps hp
  have hnum : ∀ i, order_num_sum lor hyps n i = order_num_sum lor' hyps n i := by
    intro i
    unfold order_num_sum
    rw [forall2_map_eq hzip (fun p q hpq => by
      rw [nist_score_best_perm lor lor' n hp p.1 q.1 hpq.1 p.2 i, hpq.2])]
  have hden : ∀ i, order_den_sum lor hyps n i = order_den_sum lor' hyps n i := by
    intro i
    unfold order_den_sum
    rw [forall2_map_eq hzip (fun p q hpq => by
      rw [nist_score_best_perm lor lor' n hp p.1 q.1 hpq.1 p.2 i, hpq.2])]
  have href : ∀ i, order_ref_len_sum lor hyps n i = order_ref_len_sum lor' hyps n i := by
    intro i
    unfold order_ref_len_sum
    rw [forall2_map_eq hzip (fun p q hpq => by
      rw [nist_score_best_perm lor lor' n hp p.1 q.1 hpq.1 p.2 i, hpq.2])]
  have hsys : item_hyp_len_sum lor hyps = item_hyp_len_sum lor' hyps := by
    unfold item_hyp_len_sum
    rw [forall2_map_eq hzip (fun p q hpq => by rw [hpq.2])]
  rw [nist_accumulate_eq, nist_accumulate_eq]
  ext j
  · dsimp only
    split_ifs with hj
    · exact hnum j
    · rfl
  · dsimp only
    split_ifs with hj
    · exact hden j
    · rfl
  · dsimp only
    congr 1
    exact List.map_congr_left fun k _ => href (k + 1)
  · dsimp only
    rw [hsys]

theorem isEmpty_eq_of_length {α β : Type} (l : List α) (l' : List β)
    (h : l.length = l'.length) : l.isEmpty = l'.isEmpty := by
  rcases l with _ | ⟨a, l⟩ <;> rcases l' with _ | ⟨b, l'⟩ <;> simp_all

theorem any_isEmpty_eq {l l' : List (RefSet × Sentence)}
    (h : List.Forall₂ (fun p q : RefSet × Sentence => p.1.Perm q.1 ∧ p.2 = q.2) l l') :
    (l.any fun p => p.1.isEmpty) = (l'.any fun p => p.1.isEmpty) := by
  induction h with
  | nil => rfl
  | cons hab hs ih =>
    simp only [List.any_cons]
    rw [ih, isEmpty_eq_of_length _ _ hab.1.length_eq]

theorem corpus_nist_perm (lor lor' : Corpus) (hyps : List Sentence) (n : ℕ)
    (hp : List.Forall₂ List.Perm lor lor') :
    corpus_nist lor hyps n = corpus_nist lor' hyps n := by
  have hlen : lor.length = lor'.length := List.Forall₂.length_eq hp
  have hacc : nist_accumulate lor hyps n = nist_accumulate lor' hyps n :=
    nist_accumulate_perm lor lor' hyps n hp
  have hzl : (lor.zip hyps).length = (lor'.zip hyps).length := by
    rw [List.length_zip, List.length_zip, hlen]
  have hany : ((lor.zip hyps).any fun p => p.1.isEmpty) =
      ((lor'.zip hyps).any fun p => p.1.isEmpty) :=
    any_isEmpty_eq (zip_forall2 lor lor' hyps hp)
  have hnil : ((lor.zip hyps) = []) ↔ ((lor'.zip hyps) = []) := by
    rw [← List.length_eq_zero, ← List.length_eq_zero, hzl]
  have hnil2 : ((lor.zip hyps) ≠ []) = ((lor'.zip hyps) ≠ []) :=
    propext (not_congr hnil)
  have hemp : (lor.zip hyps).isEmpty = (lor'.zip hyps).isEmpty :=
    isEmpty_eq_of_length _ _ hzl
  simp only [corpus_nist]
  simp only [hacc, hlen, hany, hemp, hnil2]

/-- C5: `corpus_nist` selects, per `(order, item)` pair, the reference
maximizing the 4-tuple `(precision, numerator, denominator, ref_len)` under
lexicographic comparison; permuting the references inside the reference sets
(here: every item whose per-order, per-reference precisions are pairwise
distinct) leaves each selected tuple and the final score unchanged.  (The
selected tuple is in fact invariant for every corpus, because the
lexicographic order on the 4-tuples is total, so the maximal tuple value is
permutation-independent even under ties.) -/
theorem nist_score_best_perm_invariant (lor lor' : Corpus)
    (hyps : List Sentence) (n : ℕ)
    (hperm : List.Forall₂ List.Perm lor lor')
    (_hdist : ∀ p ∈ lor.zip hyps, ∀ k, k < n →
      ((p.1.map fun reference =>
        (nist_score_tuple lor n p.2 reference (k + 1)).precision).Pairwise (· ≠ ·))) :
    (∀ k, k < n → List.Forall₂ (fun p q : RefSet × Sentence =>
        nist_score_best lor n p.1 p.2 (k + 1) =
          nist_score_best lor' n q.1 q.2 (k + 1))
      (lor.zip hyps) (lor'.zip hyps)) ∧
    corpus_nist lor hyps n = corpus_nist lor' hyps n := by
  constructor
  · intro k hk
    refine List.Forall₂.imp ?_ (zip_forall2 lor lor' hyps hperm)
    intro p q hpq
    rw [nist_score_best_perm lor lor' n hperm p.1 q.1 hpq.1 p.2 (k + 1), hpq.2]
  · exact corpus_nist_perm lor lor' hyps n hperm

/-- Witness for C5: swapping the two references of the single item (whose
order-1 precisions `1` and `0` are distinct) leaves the score unchanged. -/
theorem nist_score_best_perm_invariant_witness :
    corpus_nist [[[0], [1]]] [[0]] 1 = corpus_nist [[[1], [0]]] [[0]] 1 :=
  (nist_score_best_perm_invariant [[[0], [1]]] [[[1], [0]]] [[0]] 1
    (List.Forall₂.cons (List.Perm.swap [1] [0] []) List.Forall₂.nil)
    (by
      intro p hp k hk
      interval_cases k
      rw [show List.zip [[[0], [1]]] [[0]] = [([[0], [1]], ([0] : Sentence))] from rfl] at hp
      rw [List.mem_singleton] at hp
      subst hp
      have hw : information_weight [[[0], [1]]] 1 [0] = 1 := by
        unfold information_weight
        rw [if_neg (by decide)]
        rw [show total_reference_words [[[0], [1]]] = 2 from rfl,
          show ngram_freq [[[0], [1]]] 1 [0] = 1 from rfl]
        rw [show ((2 : ℕ) : ℝ) / ((1 : ℕ) : ℝ) = 2 by norm_num]
        exact Real.logb_self_eq_one (by norm_num)
      have hp0 : (nist_score_tuple [[[0], [1]]] 1 [0] [0] (0 + 1)).precision =
          information_weight [[[0], [1]]] 1 [0] := by
        unfold nist_score_tuple
        simp [sent_ngram_list, ngrams, List.range_succ]
      have hp1 : (nist_score_tuple [[[0], [1]]] 1 [0] [1] (0 + 1)).precision = 0 := by
        unfold nist_score_tuple
        simp [sent_ngram_list, ngrams, List.range_succ]
      simp only [List.map_cons, List.map_nil, hp0, hp1, hw]
      norm_num [List.pairwise_cons])).2

end Nist
